import Mathlib

/-!
Shallow embedding of the grammar-compiler front end of this repository:
`cli/generate/src/grammars.rs` and the entry points of `cli/generate/src/lib.rs`
(and its twin `cli/src/generate/mod.rs`).  Rust `Vec` becomes `List`, machine
integers become `Nat`/`Int` (only compared, never overflowed), `HashMap` keyed
lookups become association-list lookups, and a fallible operation (`unwrap`,
indexing) returns `Option`.
-/

namespace TreeSitter

/-- VariableType from grammars.rs. -/
inductive VariableType where
  | hidden
  | auxiliary
  | anonymous
  | named
deriving DecidableEq, Repr

/-- Modelled from the spec: `Associativity` lives in rules.rs, which is not under
src/; the spec (section 4.2 / 4.4) names declared left/right associativity. -/
inductive Associativity where
  | left
  | right
deriving DecidableEq, Repr

/-- Modelled from the spec: `Alias` from rules.rs (not under src/); a display
name / namedness override (spec section 3, AliasMap). -/
structure Alias where
  value : String
  is_named : Bool
deriving DecidableEq, Repr

/-- Modelled from the spec: `Precedence` from rules.rs (not under src/); the
spec mentions `Precedence::None` (section 4.2) and named/numeric precedence. -/
inductive Precedence where
  | none
  | integer (value : Int)
  | name (value : String)
deriving DecidableEq, Repr

/-- Modelled from the spec: the kind tag of a resolved `Symbol`
(terminal / non-terminal / external / end, spec section 3). -/
inductive SymbolType where
  | terminal
  | nonTerminal
  | external
  | end_
deriving DecidableEq, Repr

/-- Modelled from the spec: `Symbol` from rules.rs (not under src/), "a resolved
integer reference tagged with a kind"; equality is by (kind, index). -/
structure Symbol where
  kind : SymbolType
  index : Nat
deriving DecidableEq, Repr

/-- Modelled from the spec: the annotation payload of a `Metadata` rule
(spec section 3: precedence, associativity, alias, field_name, is_token,
is_string).  `remove_unused_rules` only ever looks through it at the inner
rule, so the claims below never inspect these fields. -/
structure MetadataParams where
  precedence : Precedence
  associativity : Option Associativity
  «alias» : Option Alias
  field_name : Option String
  is_token : Bool
  is_string : Bool

/-- Modelled from the spec: the `Rule` sum type from rules.rs (not under src/),
spec section 3; exactly the variants matched in grammars.rs
(`NamedSymbol`, `Choice`, `Metadata`, `Repeat`, `Seq`, `Blank`, `String`,
`Pattern`, `Symbol`). -/
inductive Rule where
  | blank
  | string (value : String)
  | pattern (value : String) (flags : String)
  | namedSymbol (name : String)
  | symbol (value : Symbol)
  | choice (rules : List Rule)
  | seq (rules : List Rule)
  | repeat (rule : Rule)
  | metadata (params : MetadataParams) (rule : Rule)

/-- Variable from grammars.rs. -/
structure Variable where
  name : String
  kind : VariableType
  rule : Rule

/-- PrecedenceEntry from grammars.rs. -/
inductive PrecedenceEntry where
  | name (value : String)
  | symbol (value : String)
deriving DecidableEq, Repr

/-- InputGrammar from grammars.rs. -/
structure InputGrammar where
  name : String
  «variables» : List Variable
  extra_symbols : List Rule
  expected_conflicts : List (List String)
  precedence_orderings : List (List PrecedenceEntry)
  external_tokens : List Rule
  variables_to_inline : List String
  supertype_symbols : List String
  word_token : Option String

mutual

/-- InputGrammar::rule_is_used from grammars.rs.  The source iterates
`self.variables.iter().any(|v| match rule ...)`; only the `NamedSymbol` arm
uses `v`, so the match is hoisted outside the closure here (the resulting
boolean is identical arm by arm). -/
def rule_is_used (g : InputGrammar) : Rule → Bool
  | .namedSymbol name => g.variables.any (fun v => v.name == name)
  | .choice rules => g.variables.any (fun _ => any_rule_is_used g rules)
  | .metadata _ rule => g.variables.any (fun _ => rule_is_used g rule)
  | .repeat inner => g.variables.any (fun _ => rule_is_used g inner)
  | .seq rules => g.variables.any (fun _ => any_rule_is_used g rules)
  | .blank => g.variables.any (fun _ => false)
  | .string _ => g.variables.any (fun _ => false)
  | .pattern _ _ => g.variables.any (fun _ => false)
  | .symbol _ => g.variables.any (fun _ => false)

/-- The `rules.iter().any(|r| self.rule_is_used(r))` sub-expression of
rule_is_used, written out as its own recursion over the list. -/
def any_rule_is_used (g : InputGrammar) : List Rule → Bool
  | [] => false
  | r :: rs => rule_is_used g r || any_rule_is_used g rs

end

/-- InputGrammar::remove_unused_rules from grammars.rs.  The Rust builds a
`HashMap<String, usize>` of names of variables whose rule is not "used" (the
index value is never read), then filters the five collections with
`retain`; the map is modelled as the list of those names, `retain` as
`List.filter`. -/
def remove_unused_rules (g : InputGrammar) : InputGrammar :=
  let to_remove : List String :=
    (g.variables.filter (fun v => !rule_is_used g v.rule)).map (fun v => v.name)
  { g with
    «variables» := g.variables.filter (fun v => !to_remove.contains v.name),
    extra_symbols := g.extra_symbols.filter (fun r =>
      match r with
      | .namedSymbol name => !to_remove.contains name
      | .string name => !to_remove.contains name
      | _ => true),
    external_tokens := g.external_tokens.filter (fun r =>
      match r with
      | .namedSymbol name => !to_remove.contains name
      | .string name => !to_remove.contains name
      | _ => true),
    variables_to_inline := g.variables_to_inline.filter (fun name =>
      !to_remove.contains name),
    supertype_symbols := g.supertype_symbols.filter (fun name =>
      !to_remove.contains name) }

mutual

/-- Names of all `NamedSymbol` rules occurring anywhere inside a rule
(the "rule reference" / containment relation of the spec, section 4.1). -/
def named_symbol_refs : Rule → List String
  | .namedSymbol name => [name]
  | .choice rules => named_symbol_refs_list rules
  | .metadata _ rule => named_symbol_refs rule
  | .repeat inner => named_symbol_refs inner
  | .seq rules => named_symbol_refs_list rules
  | .blank => []
  | .string _ => []
  | .pattern _ _ => []
  | .symbol _ => []

/-- List version of named_symbol_refs. -/
def named_symbol_refs_list : List Rule → List String
  | [] => []
  | r :: rs => named_symbol_refs r ++ named_symbol_refs_list rs

end

/-- Name carried by an extras / external-tokens entry, per the two arms the
source matches when filtering them (`Rule::NamedSymbol(name) |
Rule::String(name)`). -/
def entry_name : Rule → Option String
  | .namedSymbol name => some name
  | .string value => some value
  | _ => none

/-- Checker for the spec's invariant (section 3, InputGrammar): a name
resolves if it is a declared variable, external token, or extra symbol. -/
def resolves (g : InputGrammar) (n : String) : Bool :=
  g.variables.any (fun v => v.name == n) ||
  g.external_tokens.any (fun r => entry_name r == some n) ||
  g.extra_symbols.any (fun r => entry_name r == some n)

/-- Checker for claim C3: every NamedSymbol reference occurring in any
variable's rule resolves within the grammar. -/
def all_refs_resolve (g : InputGrammar) : Bool :=
  g.variables.all (fun v => (named_symbol_refs v.rule).all (fun n => resolves g n))

/-- One fuel-bounded step layer of the reachability closure (spec side):
starting from `acc`, add every name referenced by a variable whose name is
already in `acc`. -/
def reachable_closure (g : InputGrammar) : Nat → List String → List String
  | 0, acc => acc
  | fuel + 1, acc =>
    let new := ((g.variables.filter (fun v => acc.contains v.name)).map
      (fun v => named_symbol_refs v.rule)).flatten.filter (fun n => !acc.contains n)
    match new with
    | [] => acc
    | _ => reachable_closure g fuel (acc ++ new)

/-- Spec-side definition, following the words of claim C1: the names reachable
from variable 0 (the start symbol) via the Rule containment relation.  Fuel
equal to the number of variables suffices since each round that does not
reach a fixpoint adds at least one name referenced from the set so far. -/
def reachable_from_start (g : InputGrammar) : List String :=
  match g.variables with
  | [] => []
  | v :: _ => reachable_closure g g.variables.length [v.name]

-- Extracted lexical grammar

/-- Modelled from the spec: one NFA state (spec section 3): an accept marker
(tagged with the owning token and its precedence rank, section 4.3) or a
branch over (character-class, successor) transitions, `Option.none` standing
for an epsilon transition.  The claims below never inspect it. -/
inductive NfaState where
  | accept (token_index : Nat) (precedence : Int)
  | branch (transitions : List (Option (Char → Bool) × Nat))

/-- Modelled from the spec: the Nfa from nfa.rs (not under src/), a directed
graph of states addressed by index. -/
structure Nfa where
  states : List NfaState

/-- LexicalVariable from grammars.rs (`start_state: u32` becomes `Nat`). -/
structure LexicalVariable where
  name : String
  kind : VariableType
  implicit_precedence : Int
  start_state : Nat
deriving DecidableEq, Repr

/-- LexicalGrammar from grammars.rs. -/
structure LexicalGrammar where
  nfa : Nfa
  «variables» : List LexicalVariable

/-- Rust's `Iterator::position`: index of the first element satisfying the
predicate, `none` when there is none. -/
def list_position (p : α → Bool) : List α → Option Nat
  | [] => none
  | a :: as => if p a then some 0 else (list_position p as).map (· + 1)

/-- LexicalGrammar::variable_index_for_nfa_state from grammars.rs.  The
source's `.position(|v| v.start_state >= state_id).unwrap()` is modelled
with `Option`: `none` is the panic of `unwrap`. -/
def variable_index_for_nfa_state (g : LexicalGrammar) (state_id : Nat) : Option Nat :=
  list_position (fun v => decide (v.start_state ≥ state_id)) g.variables

-- Extracted syntax grammar

/-- ProductionStep from grammars.rs. -/
structure ProductionStep where
  symbol : Symbol
  precedence : Precedence
  associativity : Option Associativity
  «alias» : Option Alias
  field_name : Option String
deriving DecidableEq, Repr

/-- Production from grammars.rs (`dynamic_precedence: i32` becomes `Int`). -/
structure Production where
  steps : List ProductionStep
  dynamic_precedence : Int
deriving DecidableEq, Repr

/-- A Rust shared reference `&Production`: the address the borrow points to
together with the value stored there.  The source casts the reference to
`*const Production`, i.e. uses only `addr`. -/
structure ProductionRef where
  addr : Nat
  val : Production

/-- InlinedProductionMap from grammars.rs.  The
`HashMap<(*const Production, u32), Vec<usize>>` becomes an association list
keyed by (address, step index); `HashMap` keys are unique, lookup returns
the entry for the key. -/
structure InlinedProductionMap where
  productions : List Production
  production_map : List ((Nat × Nat) × List Nat)

/-- InlinedProductionMap::inlined_productions from grammars.rs.  The
`self.productions[index]` indexing (which would panic out of bounds) is
modelled with `getD`; the theorem below only speaks about in-bounds
indices. -/
def inlined_productions (m : InlinedProductionMap) (production : ProductionRef)
    (step_index : Nat) : Option (List Production) :=
  (m.production_map.lookup (production.addr, step_index)).map
    (fun production_indices =>
      production_indices.map (fun index => m.productions.getD index ⟨[], 0⟩))

-- Comment stripping (lib.rs / mod.rs, JSON_COMMENT_REGEX)

/-- Rust regex `\s` (Unicode default): the White_Space code points. -/
def is_regex_space (c : Char) : Bool :=
  let n := c.toNat
  n == 0x20 || n == 0x9 || n == 0xA || n == 0xB || n == 0xC || n == 0xD ||
  n == 0x85 || n == 0xA0 || n == 0x1680 || (0x2000 ≤ n && n ≤ 0x200A) ||
  n == 0x2028 || n == 0x2029 || n == 0x202F || n == 0x205F || n == 0x3000

/-- One attempt of the multi-line regex `^\s*//.*` at a line-start position:
greedily skip whitespace (`\s` also matches a newline, so this run may cross
line boundaries), require `//`, and consume the rest of that line (`.` does
not match a newline).  Returns the suffix after the match, or `none`.  The
whitespace run is forced: within a whitespace run only its end can be
followed by `/`, so the greedy `\s*` has a unique viable extent. -/
def comment_match (cs : List Char) : Option (List Char) :=
  match cs.dropWhile is_regex_space with
  | '/' :: '/' :: rest => some (rest.dropWhile (fun c => c != '\n'))
  | _ => none

/-- `JSON_COMMENT_REGEX.replace_all(_, "\n")` from lib.rs (the identical
regex and call appear in cli/src/generate/mod.rs): scan line starts from the
left (`^` in multi-line mode matches at position 0 and after each newline);
at each line start either replace a match of `^\s*//.*` by a single newline
and resume after the matched line, or emit the line unchanged. -/
def replace_comments (cs : List Char) : List Char :=
  match h : comment_match cs with
  | some [] => ['\n']
  | some (_ :: rest) => '\n' :: '\n' :: replace_comments rest
  | none =>
    match h2 : cs.dropWhile (fun c => c != '\n') with
    | [] => cs
    | _ :: rest => cs.takeWhile (fun c => c != '\n') ++ '\n' :: replace_comments rest
termination_by cs.length
decreasing_by
  · unfold comment_match at h
    have hlen : (cs.dropWhile is_regex_space).length ≤ cs.length :=
      (List.dropWhile_sublist is_regex_space).length_le
    split at h
    · rename_i r heq
      have h2 : (r.dropWhile (fun c => c != '\n')).length ≤ r.length :=
        (List.dropWhile_sublist _).length_le
      injection h with h4
      rw [h4] at h2
      rw [heq] at hlen
      simp at hlen h2
      omega
    · simp at h
  · have h3 : (cs.dropWhile (fun c => c != '\n')).length ≤ cs.length :=
      (List.dropWhile_sublist _).length_le
    rw [h2] at h3
    simp at h3
    omega

/-- Lines of a character list, split at each newline (the newline separators
are not part of the lines). -/
def split_lines : List Char → List (List Char)
  | [] => [[]]
  | '\n' :: rest => [] :: split_lines rest
  | c :: rest =>
    match split_lines rest with
    | [] => [[c]]
    | l :: ls => (c :: l) :: ls

/-- Inverse of split_lines: join lines with newline separators. -/
def join_lines : List (List Char) → List Char
  | [] => []
  | [l] => l
  | l :: ls => l ++ '\n' :: join_lines ls

/-- A line consisting of optional leading whitespace followed by `//`. -/
def is_comment_line (l : List Char) : Bool :=
  match l.dropWhile is_regex_space with
  | '/' :: '/' :: _ => true
  | _ => false

/-- Spec-side definition, following the words of claim C10: replace every
input line consisting of optional leading whitespace followed by `//` (and
the rest of that line) with a newline character, leaving every other line
unchanged. -/
def claimed_replace_comments (cs : List Char) : List Char :=
  join_lines ((split_lines cs).map (fun l => if is_comment_line l then ['\n'] else l))

-- Pipeline entry point (lib.rs)

/-- GeneratedParser from lib.rs. -/
structure GeneratedParser where
  c_code : String
  node_types_json : String

/-- Modelled from the spec: the stages of `generate_parser_for_grammar` whose
sources are not under src/ — `parse_grammar` (section 4.1) and
`generate_parser_for_grammar_with_opts`'s body (prepare_grammar,
node_types, build_tables, render_c_code, sections 4.2-4.5, with the fixed
`abi_version = tree_sitter::LANGUAGE_VERSION` and no report symbol).  The
spec (section 5) states each stage is a pure, synchronous function of its
input, which is what a Lean function is. -/
structure GrammarPipeline where
  parse_grammar : List Char → Except String InputGrammar
  generate_with_opts : InputGrammar → Except String GeneratedParser

/-- generate_parser_for_grammar from lib.rs: strip full-line `//` comments
with JSON_COMMENT_REGEX, parse the document, run the rest of the pipeline,
and return (grammar name, generated parser source). -/
def generate_parser_for_grammar (P : GrammarPipeline) (grammar_json : List Char) :
    Except String (String × String) :=
  match P.parse_grammar (replace_comments grammar_json) with
  | .error e => .error e
  | .ok input_grammar =>
    match P.generate_with_opts input_grammar with
    | .error e => .error e
    | .ok parser => .ok (input_grammar.name, parser.c_code)

-- Concrete instances used by the witnesses and counterexamples below

/-- Grammar with a start symbol whose rule has no references and a second
variable referring to the first. -/
def g_c1 : InputGrammar :=
  ⟨"g1", [⟨"v0", .named, .string "x"⟩, ⟨"v1", .named, .namedSymbol "v0"⟩],
    [], [], [], [], [], [], none⟩

/-- Grammar with distinct names, one self-referencing variable and one
reference-free variable. -/
def g_c1w : InputGrammar :=
  ⟨"g1w", [⟨"a", .named, .namedSymbol "a"⟩, ⟨"b", .named, .string "x"⟩],
    [], [], [], [], [], [], none⟩

/-- Grammar whose single variable (the start symbol, index 0) has a
reference-free rule. -/
def g_c2 : InputGrammar :=
  ⟨"g2", [⟨"v0", .named, .string "hello"⟩], [], [], [], [], [], [], none⟩

/-- Grammar with one blank-rule variable. -/
def g_c2w : InputGrammar :=
  ⟨"g2w", [⟨"s", .named, .blank⟩], [], [], [], [], [], [], none⟩

/-- Grammar where variable "a" refers to variable "b" whose own rule is a
bare string. -/
def g_c3 : InputGrammar :=
  ⟨"g3", [⟨"a", .named, .namedSymbol "b"⟩, ⟨"b", .named, .string "x"⟩],
    [], [], [], [], [], [], none⟩

/-- Grammar whose name "a" is about to be removed while appearing in every
other collection. -/
def g_c5 : InputGrammar :=
  ⟨"g5", [⟨"a", .named, .string "x"⟩, ⟨"b", .named, .namedSymbol "a"⟩],
    [.namedSymbol "a", .blank], [["a", "b"]], [[.name "a"]],
    [.string "a", .pattern "p" ""], ["a"], ["a"], some "a"⟩

/-- Lexical grammar with monotonically increasing start states 2, 5, 9. -/
def g_lex : LexicalGrammar :=
  ⟨⟨[]⟩, [⟨"t0", .named, 0, 2⟩, ⟨"t1", .named, 0, 5⟩, ⟨"t2", .named, 0, 9⟩]⟩

/-- A production with no steps and dynamic precedence 5. -/
def p_a : Production := ⟨[], 5⟩

/-- A production with one step. -/
def p_b : Production := ⟨[⟨⟨.terminal, 0⟩, .none, none, none, none⟩], 0⟩

/-- An inlined-production map holding one entry keyed by address 10, step 0. -/
def m_c6 : InlinedProductionMap := ⟨[p_a, p_b], [((10, 0), [1, 0])]⟩

/-- Reference to p_a stored at address 10 (the address the map was keyed
with). -/
def ref_keyed : ProductionRef := ⟨10, p_a⟩

/-- Reference to a value-equal copy of p_a living at a different address. -/
def ref_copy : ProductionRef := ⟨11, p_a⟩

/-- Pipeline whose missing-stage functions are constant. -/
def pipe_c7 : GrammarPipeline :=
  ⟨fun _ => .ok g_c2w, fun _ => .ok ⟨"generated code", "node types"⟩⟩

/-- Input whose second line is a comment line and whose first line is
whitespace-only: two spaces, newline, a full-line comment, newline, y. -/
def ex_c10 : List Char := [' ', ' ', '\n', '/', '/', 'x', '\n', 'y']

-- Helper lemmas

/-- `any` of a constant predicate tests only non-emptiness. -/
theorem any_const (l : List α) (b : Bool) : l.any (fun _ => b) = (!l.isEmpty && b) := by
  cases l <;> cases b <;> simp

mutual

/-- rule_is_used holds exactly when the variable list is non-empty and some
NamedSymbol occurring in the rule names a declared variable. -/
theorem rule_is_used_eq (g : InputGrammar) : ∀ r : Rule,
    rule_is_used g r = (!g.variables.isEmpty &&
      (named_symbol_refs r).any (fun n => g.variables.any (fun v => v.name == n)))
  | .namedSymbol n => by
    simp only [rule_is_used, named_symbol_refs, List.any_cons, List.any_nil, Bool.or_false]
    cases hl : g.variables <;> simp
  | .choice rules => by
    have ih := any_rule_is_used_eq g rules
    simp only [rule_is_used, named_symbol_refs, any_const, ih]
    cases g.variables.isEmpty <;> simp
  | .metadata params rule => by
    have ih := rule_is_used_eq g rule
    simp only [rule_is_used, named_symbol_refs, any_const, ih]
    cases g.variables.isEmpty <;> simp
  | .repeat inner => by
    have ih := rule_is_used_eq g inner
    simp only [rule_is_used, named_symbol_refs, any_const, ih]
    cases g.variables.isEmpty <;> simp
  | .seq rules => by
    have ih := any_rule_is_used_eq g rules
    simp only [rule_is_used, named_symbol_refs, any_const, ih]
    cases g.variables.isEmpty <;> simp
  | .blank => by simp [rule_is_used, named_symbol_refs, any_const]
  | .string _ => by simp [rule_is_used, named_symbol_refs, any_const]
  | .pattern _ _ => by simp [rule_is_used, named_symbol_refs, any_const]
  | .symbol _ => by simp [rule_is_used, named_symbol_refs, any_const]

/-- List version of rule_is_used_eq. -/
theorem any_rule_is_used_eq (g : InputGrammar) : ∀ rs : List Rule,
    any_rule_is_used g rs = (!g.variables.isEmpty &&
      (named_symbol_refs_list rs).any (fun n => g.variables.any (fun v => v.name == n)))
  | [] => by simp [any_rule_is_used, named_symbol_refs_list]
  | r :: rs => by
    have ih1 := rule_is_used_eq g r
    have ih2 := any_rule_is_used_eq g rs
    simp only [any_rule_is_used, named_symbol_refs_list, ih1, ih2, List.any_append]
    cases g.variables.isEmpty <;> simp

end

/-- For a grammar with at least one variable, rule_is_used is reference
matching. -/
theorem rule_is_used_of_ne (g : InputGrammar) (hne : g.variables ≠ []) (r : Rule) :
    rule_is_used g r =
      (named_symbol_refs r).any (fun n => g.variables.any (fun v => v.name == n)) := by
  rw [rule_is_used_eq]
  simp [List.isEmpty_eq_false_iff_exists_mem.mpr, hne]

/-- Membership in the removal name list of remove_unused_rules. -/
theorem mem_to_remove (g : InputGrammar) (n : String) :
    ((g.variables.filter (fun v => !rule_is_used g v.rule)).map (fun v => v.name)).contains n =
      true ↔ ∃ w ∈ g.variables, rule_is_used g w.rule = false ∧ w.name = n := by
  simp [List.contains, List.mem_filter]
  constructor
  · rintro ⟨w, ⟨hw, hwu⟩, hwn⟩
    exact ⟨w, hw, by simpa using hwu, hwn⟩
  · rintro ⟨w, hw, hwu, hwn⟩
    exact ⟨w, ⟨hw, by simp [hwu]⟩, hwn⟩

-- Claim C1

/-- Claim C1, counterexample: in g_c1 the surviving variable list after
remove_unused_rules is ["v1"], while the set of variables reachable from
variable 0 via the Rule containment relation is ["v0"]; the survivor "v1"
is not reachable from the start symbol and the reachable start symbol "v0"
does not survive. -/
theorem c1_counterexample :
    (remove_unused_rules g_c1).variables.map (fun v => v.name) = ["v1"] ∧
    reachable_from_start g_c1 = ["v0"] := by
  decide

/-- Claim C1 as amended: for every InputGrammar with pairwise-distinct
variable names, after remove_unused_rules the surviving variable list is
exactly those variables whose rule contains at least one NamedSymbol naming
a variable declared in the original grammar — not the set reachable from
variable 0. -/
theorem c1_theorem (g : InputGrammar)
    (hnd : (g.variables.map (fun v => v.name)).Nodup) :
    (remove_unused_rules g).variables =
      g.variables.filter (fun v =>
        (named_symbol_refs v.rule).any (fun n => g.variables.any (fun w => w.name == n))) := by
  simp only [remove_unused_rules]
  apply List.filter_congr
  intro v hv
  have hne : g.variables ≠ [] := List.ne_nil_of_mem hv
  cases hu : rule_is_used g v.rule with
  | true =>
    have hcont :
        ((g.variables.filter (fun v => !rule_is_used g v.rule)).map
          (fun v => v.name)).contains v.name = false := by
      cases hx : ((g.variables.filter (fun v => !rule_is_used g v.rule)).map
          (fun v => v.name)).contains v.name with
      | false => rfl
      | true =>
        exfalso
        obtain ⟨w, hw, hwu, hwn⟩ := (mem_to_remove g v.name).mp hx
        have hwv : w = v := List.inj_on_of_nodup_map hnd hw hv hwn
        rw [hwv, hu] at hwu
        cases hwu
    rw [hcont, ← rule_is_used_of_ne g hne v.rule, hu]
    rfl
  | false =>
    have hcont :
        ((g.variables.filter (fun v => !rule_is_used g v.rule)).map
          (fun v => v.name)).contains v.name = true :=
      (mem_to_remove g v.name).mpr ⟨v, hv, hu, rfl⟩
    rw [hcont, ← rule_is_used_of_ne g hne v.rule, hu]
    rfl

/-- Witness for c1_theorem at g_c1w. -/
theorem c1_witness :
    (remove_unused_rules g_c1w).variables =
      g_c1w.variables.filter (fun v =>
        (named_symbol_refs v.rule).any (fun n => g_c1w.variables.any (fun w => w.name == n))) :=
  c1_theorem g_c1w (by decide)

-- Claim C2

/-- Claim C2, counterexample: remove_unused_rules returns successfully (it
cannot fail) on a grammar with one variable, leaving an empty variable list
with variable 0 removed. -/
theorem c2_counterexample :
    g_c2.variables.map (fun v => v.name) = ["v0"] ∧
    (remove_unused_rules g_c2).variables.isEmpty = true := by
  decide

/-- Claim C2 as amended: remove_unused_rules never fails — it is a total
function with no error result; in particular whenever no variable's rule
contains a NamedSymbol, it removes every variable, including the start
symbol, and returns with an empty variable list. -/
theorem c2_theorem (g : InputGrammar)
    (h : ∀ v ∈ g.variables, named_symbol_refs v.rule = []) :
    (remove_unused_rules g).variables = [] := by
  simp only [remove_unused_rules]
  rw [List.filter_eq_nil_iff]
  intro v hv
  have hne : g.variables ≠ [] := List.ne_nil_of_mem hv
  have hu : rule_is_used g v.rule = false := by
    rw [rule_is_used_of_ne g hne, h v hv]
    rfl
  have hcont :
      ((g.variables.filter (fun v => !rule_is_used g v.rule)).map
        (fun v => v.name)).contains v.name = true := by
    exact (mem_to_remove g v.name).mpr ⟨v, hv, hu, rfl⟩
  simp only [hcont]
  decide

/-- Witness for c2_theorem at g_c2w. -/
theorem c2_witness : (remove_unused_rules g_c2w).variables = [] :=
  c2_theorem g_c2w (by decide)

-- Claim C3

/-- Claim C3, counterexample: after remove_unused_rules on g_c3 the surviving
variable "a" still refers to "b", which is neither a declared variable nor an
external token nor an extra symbol of the resulting grammar — a dangling
reference survives removal. -/
theorem c3_counterexample :
    (remove_unused_rules g_c3).variables.map (fun v => v.name) = ["a"] ∧
    all_refs_resolve (remove_unused_rules g_c3) = false := by
  decide

/-- Claim C3 as amended: a NamedSymbol in a surviving variable's rule need
not resolve in the resulting grammar; what does hold is that every surviving
variable's rule contains at least one NamedSymbol naming a variable declared
in the original (pre-removal) grammar. -/
theorem c3_theorem (g : InputGrammar) (v : Variable)
    (hv : v ∈ (remove_unused_rules g).variables) :
    ∃ n ∈ named_symbol_refs v.rule, ∃ w ∈ g.variables, w.name = n := by
  simp only [remove_unused_rules] at hv
  rw [List.mem_filter] at hv
  obtain ⟨hvg, hkeep⟩ := hv
  have hne : g.variables ≠ [] := List.ne_nil_of_mem hvg
  have hu : rule_is_used g v.rule = true := by
    by_contra hfalse
    have hu' : rule_is_used g v.rule = false := by simpa using hfalse
    have hc := (mem_to_remove g v.name).mpr ⟨v, hvg, hu', rfl⟩
    rw [hc] at hkeep
    cases hkeep
  rw [rule_is_used_of_ne g hne] at hu
  rw [List.any_eq_true] at hu
  obtain ⟨n, hn, hn2⟩ := hu
  rw [List.any_eq_true] at hn2
  obtain ⟨w, hw, hw2⟩ := hn2
  exact ⟨n, hn, w, hw, by simpa using hw2⟩

/-- Witness for c3_theorem: the survivor "a" of g_c3 references the
declared (then removed) variable "b". -/
theorem c3_witness :
    ∃ n ∈ named_symbol_refs (Rule.namedSymbol "b"), ∃ w ∈ g_c3.variables, w.name = n :=
  c3_theorem g_c3 ⟨"a", .named, .namedSymbol "b"⟩ (List.mem_cons_self _ _)

-- Claim C5

/-- Claim C5 (confirmed): every variable name that remove_unused_rules drops
from the variable list is also absent — after the call — from the extras
entries (NamedSymbol or String), the external-token entries (NamedSymbol or
String), the inline list, and the supertype list. -/
theorem c5_theorem (g : InputGrammar) (n : String)
    (hin : n ∈ g.variables.map (fun v => v.name))
    (hout : n ∉ (remove_unused_rules g).variables.map (fun v => v.name)) :
    (∀ r ∈ (remove_unused_rules g).extra_symbols, entry_name r ≠ some n) ∧
    (∀ r ∈ (remove_unused_rules g).external_tokens, entry_name r ≠ some n) ∧
    n ∉ (remove_unused_rules g).variables_to_inline ∧
    n ∉ (remove_unused_rules g).supertype_symbols := by
  obtain ⟨v, hv, hvn⟩ := List.mem_map.mp hin
  simp only [remove_unused_rules] at hout ⊢
  have hcont :
      ((g.variables.filter (fun v => !rule_is_used g v.rule)).map
        (fun v => v.name)).contains n = true := by
    by_contra hc
    have hc' :
        ((g.variables.filter (fun v => !rule_is_used g v.rule)).map
          (fun v => v.name)).contains n = false := by simpa using hc
    apply hout
    apply List.mem_map.mpr
    refine ⟨v, ?_, hvn⟩
    rw [List.mem_filter]
    refine ⟨hv, ?_⟩
    rw [hvn, hc']
    rfl
  refine ⟨?_, ?_, ?_, ?_⟩
  · intro r hr hname
    rw [List.mem_filter] at hr
    obtain ⟨_, hkeep⟩ := hr
    cases r <;> simp [entry_name] at hname <;> subst hname <;> simp at hkeep <;>
      (obtain ⟨w, hw, hwu, hwn⟩ := (mem_to_remove g _).mp hcont; exact hkeep w hw hwu hwn)
  · intro r hr hname
    rw [List.mem_filter] at hr
    obtain ⟨_, hkeep⟩ := hr
    cases r <;> simp [entry_name] at hname <;> subst hname <;> simp at hkeep <;>
      (obtain ⟨w, hw, hwu, hwn⟩ := (mem_to_remove g _).mp hcont; exact hkeep w hw hwu hwn)
  · intro hmem
    rw [List.mem_filter] at hmem
    obtain ⟨_, hkeep⟩ := hmem
    simp at hkeep
    obtain ⟨w, hw, hwu, hwn⟩ := (mem_to_remove g _).mp hcont
    exact hkeep w hw hwu hwn
  · intro hmem
    rw [List.mem_filter] at hmem
    obtain ⟨_, hkeep⟩ := hmem
    simp at hkeep
    obtain ⟨w, hw, hwu, hwn⟩ := (mem_to_remove g _).mp hcont
    exact hkeep w hw hwu hwn

/-- Witness for c5_theorem: in g_c5 the name "a" is removed from the
variable list and scrubbed from all four other collections. -/
theorem c5_witness :
    (∀ r ∈ (remove_unused_rules g_c5).extra_symbols, entry_name r ≠ some "a") ∧
    (∀ r ∈ (remove_unused_rules g_c5).external_tokens, entry_name r ≠ some "a") ∧
    "a" ∉ (remove_unused_rules g_c5).variables_to_inline ∧
    "a" ∉ (remove_unused_rules g_c5).supertype_symbols :=
  c5_theorem g_c5 "a" (by decide) (by decide)

-- Claim C8

/-- Claim C8 (confirmed): remove_unused_rules touches only the five filtered
collections; the name, expected_conflicts, precedence_orderings and
word_token fields of every InputGrammar are returned unchanged — so a
conflict group or word token naming a removed variable survives untouched. -/
theorem c8_theorem (g : InputGrammar) :
    (remove_unused_rules g).name = g.name ∧
    (remove_unused_rules g).expected_conflicts = g.expected_conflicts ∧
    (remove_unused_rules g).precedence_orderings = g.precedence_orderings ∧
    (remove_unused_rules g).word_token = g.word_token :=
  ⟨rfl, rfl, rfl, rfl⟩

-- Helper lemmas about list_position

/-- list_position finds an index exactly when some element satisfies the
predicate. -/
theorem list_position_isSome_iff (p : α → Bool) :
    ∀ l : List α, (list_position p l).isSome = true ↔ ∃ a ∈ l, p a = true
  | [] => by simp [list_position]
  | a :: as => by
    have ih := list_position_isSome_iff p as
    by_cases hpa : p a = true
    · simp [list_position, hpa]
    · simp [list_position, hpa, ih]

/-- list_position returns the least index satisfying the predicate. -/
theorem list_position_spec (p : α → Bool) :
    ∀ (l : List α) (i : Nat), list_position p l = some i →
      ∃ h : i < l.length, p (l.get ⟨i, h⟩) = true ∧
        ∀ j, (hj : j < i) → p (l.get ⟨j, Nat.lt_trans hj h⟩) = false
  | [], i => by simp [list_position]
  | a :: as, i => by
    by_cases hpa : p a = true
    · intro h
      simp only [list_position, if_pos hpa, Option.some.injEq] at h
      subst h
      refine ⟨Nat.succ_pos _, hpa, ?_⟩
      intro j hj
      exact absurd hj (Nat.not_lt_zero j)
    · intro h
      simp only [list_position, if_neg hpa, Option.map_eq_some'] at h
      obtain ⟨i', hi', rfl⟩ := h
      obtain ⟨h', hp', hbelow⟩ := list_position_spec p as i' hi'
      refine ⟨Nat.succ_lt_succ h', hp', ?_⟩
      intro j hj
      cases j with
      | zero => exact Bool.eq_false_iff.mpr hpa
      | succ j' => exact hbelow j' (Nat.lt_of_succ_lt_succ hj)

-- Claim C4

/-- Claim C4 (confirmed): for a lexical grammar with monotonically increasing
start states and a state id bounded by the last variable's start state,
variable_index_for_nfa_state returns the least index whose variable's
start_state is at least the state id. -/
theorem c4_theorem (g : LexicalGrammar) (state_id : Nat)
    (hmono : g.variables.Pairwise (fun a b => a.start_state ≤ b.start_state))
    (hne : g.variables ≠ [])
    (hlast : state_id ≤ (g.variables.getLast hne).start_state) :
    ∃ i, variable_index_for_nfa_state g state_id = some i ∧
      ∃ hi : i < g.variables.length,
        state_id ≤ (g.variables.get ⟨i, hi⟩).start_state ∧
        ∀ j, (hj : j < i) → (g.variables.get ⟨j, Nat.lt_trans hj hi⟩).start_state < state_id := by
  have hex : ∃ v ∈ g.variables, (decide (v.start_state ≥ state_id)) = true :=
    ⟨g.variables.getLast hne, List.getLast_mem hne, by simpa using hlast⟩
  have hsome := (list_position_isSome_iff _ g.variables).mpr hex
  obtain ⟨i, hi⟩ := Option.isSome_iff_exists.mp hsome
  obtain ⟨hlen, hp, hbelow⟩ := list_position_spec _ g.variables i hi
  refine ⟨i, hi, hlen, by simpa using hp, ?_⟩
  intro j hj
  have hb := hbelow j hj
  simp only [decide_eq_false_iff_not, not_le] at hb
  exact hb

/-- Witness for c4_theorem: in g_lex (start states 2, 5, 9) the state id 4 is
owned by the variable at index 1. -/
theorem c4_witness :
    ∃ i, variable_index_for_nfa_state g_lex 4 = some i ∧
      ∃ hi : i < g_lex.variables.length,
        4 ≤ (g_lex.variables.get ⟨i, hi⟩).start_state ∧
        ∀ j, (hj : j < i) → (g_lex.variables.get ⟨j, Nat.lt_trans hj hi⟩).start_state < 4 :=
  c4_theorem g_lex 4 (by decide) (by decide) (by decide)

-- Claim C9

/-- Claim C9 (confirmed): the unwrap inside variable_index_for_nfa_state
succeeds exactly when some variable's start_state is at least the state id;
for a state id greater than every start_state — in particular for an empty
variable list — it panics (modelled as `none`). -/
theorem c9_theorem (g : LexicalGrammar) (state_id : Nat) :
    (variable_index_for_nfa_state g state_id).isSome = true ↔
      ∃ v ∈ g.variables, state_id ≤ v.start_state := by
  unfold variable_index_for_nfa_state
  rw [list_position_isSome_iff]
  simp [ge_iff_le]

-- Helper lemma about association-list lookup

/-- lookup succeeds exactly when some entry has the key. -/
theorem lookup_isSome_iff {κ β : Type} [BEq κ] [LawfulBEq κ] (k : κ) :
    ∀ l : List (κ × β), (l.lookup k).isSome = true ↔ ∃ e ∈ l, e.1 = k
  | [] => by simp [List.lookup]
  | (k', b) :: es => by
    have ih := lookup_isSome_iff k es
    by_cases hk : k == k'
    · simp only [List.lookup, hk, Option.isSome_some, true_iff]
      exact ⟨(k', b), by simp, (eq_of_beq hk).symm⟩
    · have hkk : k' ≠ k := fun h => hk (by simp [h])
      simp only [List.lookup, hk, ih]
      constructor
      · rintro ⟨e, he, hek⟩
        exact ⟨e, by simp [he], hek⟩
      · rintro ⟨e, he, hek⟩
        rcases List.mem_cons.mp he with he1 | he2
        · subst he1
          exact absurd hek hkk
        · exact ⟨e, he2, hek⟩

-- Claim C6

/-- Claim C6 (confirmed): inlined_productions answers `some` exactly when the
production-map holds the key (address of the passed production reference,
step index); in that case it yields exactly the productions at the stored
indices, in stored order; and a value-equal production at a different,
unkeyed address yields `none`. -/
theorem c6_theorem (m : InlinedProductionMap) (production : ProductionRef)
    (step_index : Nat) :
    ((inlined_productions m production step_index).isSome = true ↔
        ∃ e ∈ m.production_map, e.1 = (production.addr, step_index)) ∧
    (∀ idxs, m.production_map.lookup (production.addr, step_index) = some idxs →
        (∀ j ∈ idxs, j < m.productions.length) →
        ∃ ps, inlined_productions m production step_index = some ps ∧
          ps.length = idxs.length ∧
          ∀ k, (hk : k < idxs.length) → ∀ hk2 : k < ps.length,
            m.productions.get? (idxs.get ⟨k, hk⟩) = some (ps.get ⟨k, hk2⟩)) ∧
    (∀ other : ProductionRef, other.val = production.val →
        (∀ e ∈ m.production_map, e.1 ≠ (other.addr, step_index)) →
        inlined_productions m other step_index = none) := by
  refine ⟨?_, ?_, ?_⟩
  · unfold inlined_productions
    have hsame :
        (Option.map
          (fun production_indices =>
            production_indices.map (fun index => m.productions.getD index ⟨[], 0⟩))
          (m.production_map.lookup (production.addr, step_index))).isSome =
        (m.production_map.lookup (production.addr, step_index)).isSome := by
      cases m.production_map.lookup (production.addr, step_index) <;> rfl
    rw [hsame]
    exact lookup_isSome_iff _ m.production_map
  · intro idxs hl hb
    refine ⟨idxs.map (fun j => m.productions.getD j ⟨[], 0⟩), ?_, by simp, ?_⟩
    · unfold inlined_productions
      rw [hl]
      rfl
    · intro k hk hk2
      have hmem : idxs.get ⟨k, hk⟩ ∈ idxs := idxs.get_mem _ hk
      have hjlt : idxs.get ⟨k, hk⟩ < m.productions.length := hb _ hmem
      rw [List.get?_eq_get hjlt]
      congr 1
      rw [List.get_map]
      exact (List.getD_eq_get _ _ hjlt).symm
  · intro other hval hnone
    unfold inlined_productions
    have hnolookup : m.production_map.lookup (other.addr, step_index) = none := by
      cases ho : m.production_map.lookup (other.addr, step_index) with
      | none => rfl
      | some v =>
        exfalso
        have hs : (m.production_map.lookup (other.addr, step_index)).isSome = true := by
          rw [ho]; rfl
        obtain ⟨e, he, hek⟩ := (lookup_isSome_iff _ m.production_map).mp hs
        exact hnone e he hek
    rw [hnolookup]
    rfl

/-- Witness for c6_theorem: ref_copy holds the same Production value as the
keyed ref_keyed but lives at address 11, which keys no entry, so the lookup
misses. -/
theorem c6_witness : inlined_productions m_c6 ref_copy 0 = none :=
  (c6_theorem m_c6 ref_keyed 0).2.2 ref_copy rfl (by decide)

-- Claim C7

/-- Claim C7 (confirmed, against the spec-modelled pipeline): two invocations
of generate_parser_for_grammar on equal grammar documents that both succeed
return equal (grammar name, generated source) pairs. -/
theorem c7_theorem (P : GrammarPipeline) (s t : List Char) (hst : s = t)
    (r1 r2 : String × String)
    (h1 : generate_parser_for_grammar P s = .ok r1)
    (h2 : generate_parser_for_grammar P t = .ok r2) :
    r1 = r2 := by
  subst hst
  rw [h1] at h2
  injection h2

/-- Witness for c7_theorem at the constant pipeline pipe_c7 and the empty
document. -/
theorem c7_witness : ("g2w", "generated code") = ("g2w", "generated code") :=
  c7_theorem pipe_c7 [] [] rfl ("g2w", "generated code") ("g2w", "generated code") rfl rfl

-- Helper lemmas about takeWhile / dropWhile across an append

/-- dropWhile skips a fully-satisfying prefix. -/
theorem ts_dropWhile_append_all (p : α → Bool) :
    ∀ (l r : List α), (∀ c ∈ l, p c = true) → (l ++ r).dropWhile p = r.dropWhile p
  | [], _, _ => rfl
  | a :: l, r, h => by
    have ha := h a (by simp)
    rw [List.cons_append, List.dropWhile_cons, if_pos ha]
    exact ts_dropWhile_append_all p l r (fun c hc => h c (by simp [hc]))

/-- takeWhile keeps a fully-satisfying prefix. -/
theorem ts_takeWhile_append_all (p : α → Bool) :
    ∀ (l r : List α), (∀ c ∈ l, p c = true) → (l ++ r).takeWhile p = l ++ r.takeWhile p
  | [], _, _ => rfl
  | a :: l, r, h => by
    have ha := h a (by simp)
    rw [List.cons_append, List.takeWhile_cons, if_pos ha, List.cons_append]
    rw [ts_takeWhile_append_all p l r (fun c hc => h c (by simp [hc]))]

/-- When dropWhile stops inside the first list, the rest is appended whole. -/
theorem ts_dropWhile_append_stop (p : α → Bool) :
    ∀ (l r : List α), l.dropWhile p ≠ [] → (l ++ r).dropWhile p = l.dropWhile p ++ r
  | [], _, h => absurd rfl h
  | a :: l, r, h => by
    cases hpa : p a with
    | false => simp [List.dropWhile_cons, hpa]
    | true =>
      have h' : l.dropWhile p ≠ [] := by
        rw [List.dropWhile_cons, if_pos hpa] at h
        exact h
      rw [List.cons_append, List.dropWhile_cons, if_pos hpa,
        List.dropWhile_cons, if_pos hpa]
      exact ts_dropWhile_append_stop p l r h'

-- Unfolding lemmas for replace_comments

/-- Step of replace_comments: a match ending exactly at the end of input. -/
theorem replace_comments_match_nil (cs : List Char) (h : comment_match cs = some []) :
    replace_comments cs = ['\n'] := by
  unfold replace_comments
  split
  · rfl
  · simp_all
  · simp_all

/-- Step of replace_comments: a match followed by further input (the first
unconsumed character is the matched line's terminating newline). -/
theorem replace_comments_match_cons (cs : List Char) (c : Char) (rest : List Char)
    (h : comment_match cs = some (c :: rest)) :
    replace_comments cs = '\n' :: '\n' :: replace_comments rest := by
  unfold replace_comments
  split
  · simp_all
  · rename_i hd tl heq
    rw [h] at heq
    injection heq with hq
    injection hq with hq1 hq2
    subst hq2
    rw [← replace_comments.eq_def]
  · simp_all

/-- Step of replace_comments: no match and no further newline. -/
theorem replace_comments_no_match_nil (cs : List Char)
    (h : comment_match cs = none)
    (h2 : cs.dropWhile (fun c => c != '\n') = []) :
    replace_comments cs = cs := by
  unfold replace_comments
  split
  · simp_all
  · simp_all
  · split <;> simp_all

/-- Step of replace_comments: no match at this line start; the line is
copied and scanning resumes after its newline. -/
theorem replace_comments_no_match_cons (cs : List Char) (c : Char) (rest : List Char)
    (h : comment_match cs = none)
    (h2 : cs.dropWhile (fun c => c != '\n') = c :: rest) :
    replace_comments cs = cs.takeWhile (fun c => c != '\n') ++ '\n' :: replace_comments rest := by
  unfold replace_comments
  split
  · simp_all
  · simp_all
  · split
    · simp_all
    · rename_i hd tl heq2
      rw [h2] at heq2
      injection heq2 with hq1 hq2
      subst hq2
      rw [← replace_comments.eq_def]

-- Claim C10

/-- Claim C10, counterexample: on the input "  \n//x\ny" the line-by-line
replacement the claim describes keeps the whitespace-only first line and
yields "  \n\n\ny", but the regex's `\s*` also matches newlines, so the
actual replacement absorbs the whitespace-only line into the match and
yields "\n\ny". -/
theorem c10_counterexample :
    claimed_replace_comments ex_c10 = [' ', ' ', '\n', '\n', '\n', 'y'] ∧
    replace_comments ex_c10 = ['\n', '\n', 'y'] ∧
    replace_comments ex_c10 ≠ claimed_replace_comments ex_c10 := by
  have e1 : replace_comments ex_c10 = '\n' :: '\n' :: replace_comments ['y'] :=
    replace_comments_match_cons ex_c10 '\n' ['y'] (by decide)
  have e2 : replace_comments ['y'] = ['y'] :=
    replace_comments_no_match_nil _ (by decide) (by decide)
  refine ⟨by decide, ?_, ?_⟩
  · rw [e1, e2]
  · rw [e1, e2]
    decide

/-- Claim C10 as amended: the replacement consumes, at each match, a maximal
whitespace run that may span whole whitespace-only lines before the `//`
(replacing the run and the comment text by a single newline), and a line
that stops the whitespace run without starting a comment is passed through
unchanged. -/
theorem c10_theorem :
    (∀ w t rest : List Char, (∀ c ∈ w, is_regex_space c = true) → '\n' ∉ t →
        replace_comments (w ++ '/' :: '/' :: (t ++ '\n' :: rest)) =
          '\n' :: '\n' :: replace_comments rest) ∧
    (∀ l rest : List Char, '\n' ∉ l → is_comment_line l = false →
        l.dropWhile is_regex_space ≠ [] →
        replace_comments (l ++ '\n' :: rest) = l ++ '\n' :: replace_comments rest) := by
  constructor
  · intro w t rest hw ht
    have htw : ∀ c ∈ t, (c != '\n') = true := by
      intro c hc
      simp only [bne_iff_ne, ne_eq]
      exact fun e => ht (e ▸ hc)
    have hm : comment_match (w ++ '/' :: '/' :: (t ++ '\n' :: rest)) =
        some ('\n' :: rest) := by
      unfold comment_match
      rw [ts_dropWhile_append_all _ w _ hw]
      rw [List.dropWhile_cons, if_neg (by decide)]
      show some ((t ++ '\n' :: rest).dropWhile (fun c => c != '\n')) = some ('\n' :: rest)
      rw [ts_dropWhile_append_all _ t _ htw]
      rw [List.dropWhile_cons, if_neg (by decide)]
    exact replace_comments_match_cons _ _ _ hm
  · intro l rest hnl hncl hstop
    have hall : ∀ c ∈ l, (c != '\n') = true := by
      intro c hc
      simp only [bne_iff_ne, ne_eq]
      exact fun e => hnl (e ▸ hc)
    have hm : comment_match (l ++ '\n' :: rest) = none := by
      unfold comment_match
      rw [ts_dropWhile_append_stop _ l _ hstop]
      unfold is_comment_line at hncl
      cases hd : l.dropWhile is_regex_space with
      | nil => exact absurd hd hstop
      | cons a as =>
        rw [hd] at hncl
        cases as with
        | nil =>
          split
          · simp_all
          · rfl
        | cons b bs =>
          split
          · rename_i r heq
            injection heq with hq1 hq2
            injection hq2 with hq3 hq4
            subst hq1
            subst hq3
            exact Bool.noConfusion hncl
          · rfl
    have hdw : (l ++ '\n' :: rest).dropWhile (fun x => x != '\n') = '\n' :: rest := by
      rw [ts_dropWhile_append_all _ l _ hall, List.dropWhile_cons, if_neg (by decide)]
    have htk : (l ++ '\n' :: rest).takeWhile (fun x => x != '\n') = l := by
      rw [ts_takeWhile_append_all _ l _ hall, List.takeWhile_cons, if_neg (by decide),
        List.append_nil]
    rw [replace_comments_no_match_cons _ _ _ hm hdw, htk]

/-- Witness for c10_theorem: a comment line preceded by one space collapses
to a newline, and the plain line "z" is copied unchanged. -/
theorem c10_witness :
    replace_comments [' ', '/', '/', 'a', '\n', 'z'] = ['\n', '\n', 'z'] ∧
    replace_comments ['z', '\n', 'w'] = ['z', '\n', 'w'] := by
  have h1 := c10_theorem.1 [' '] ['a'] ['z'] (by decide) (by decide)
  have h2 := c10_theorem.2 ['z'] ['w'] (by decide) (by decide) (by decide)
  have h3 : replace_comments ['z'] = ['z'] :=
    replace_comments_no_match_nil _ (by decide) (by decide)
  have h4 : replace_comments ['w'] = ['w'] :=
    replace_comments_no_match_nil _ (by decide) (by decide)
  constructor
  · rw [h3] at h1
    simpa using h1
  · rw [h4] at h2
    simpa using h2

end TreeSitter
